import Mathlib

/-!
Verification of the dictionary / pinyin-input core of the hanzibro repository.

Strings are modelled as `List Char` (`Str`).  JavaScript string primitives are
modelled as follows, restricted to the character domain the program actually
works on (ASCII plus the precomposed pinyin vowels and their combining marks);
on every other character they act as the identity, which matches JavaScript on
that domain:

* `String.prototype.toLowerCase`  — character-wise via the table `lowerPairs`;
* `String.prototype.normalize("NFD")` — character-wise via the table `nfdPairs`
  (correct for inputs without pre-existing combining sequences);
* `String.prototype.replace(/x/g, "y")` for a single-character pattern —
  `List.map (replOne x y)`;
* `String.prototype.trim` and the regex class `\s` — `jsTrim` / `isJsWs`;
* `String.prototype.includes` — `jsIncludes`;
* `String.prototype.startsWith` — `List.isPrefixOf`;
* `String.prototype.split(/class+/)` — `splitRuns`;
* `Array.prototype.sort` (stable in ECMAScript 2019+) — `List.mergeSort`.

Indices are UTF-16 code-unit offsets in JavaScript; all characters relevant to
the claims are in the BMP, where code-unit offsets coincide with character
offsets, so positions are modelled as `Nat` indices into the character list.
-/

abbrev Str := List Char

/-- Whitespace class used by JavaScript `trim` and the regex `\s`
(restricted to the common members). -/
def isJsWs (c : Char) : Bool :=
  c.toNat = 32 || c.toNat = 9 || c.toNat = 10 || c.toNat = 13 || c.toNat = 11 ||
  c.toNat = 12 || c.toNat = 0xA0 || c.toNat = 0xFEFF || c.toNat = 0x2028 || c.toNat = 0x2029

/-- Model of `String.prototype.trim`: drop leading and trailing whitespace. -/
def jsTrim (l : Str) : Str :=
  ((l.dropWhile isJsWs).reverse.dropWhile isJsWs).reverse

/-- Lower-casing table: ASCII letters plus the precomposed (toned) pinyin
vowels.  `toLowerCase` is the identity on every other character the program
encounters. -/
def lowerPairs : List (Char × Char) :=
  [('A', 'a'), ('B', 'b'), ('C', 'c'), ('D', 'd'), ('E', 'e'), ('F', 'f'),
   ('G', 'g'), ('H', 'h'), ('I', 'i'), ('J', 'j'), ('K', 'k'), ('L', 'l'),
   ('M', 'm'), ('N', 'n'), ('O', 'o'), ('P', 'p'), ('Q', 'q'), ('R', 'r'),
   ('S', 's'), ('T', 't'), ('U', 'u'), ('V', 'v'), ('W', 'w'), ('X', 'x'),
   ('Y', 'y'), ('Z', 'z'),
   ('Ü', 'ü'), ('Đ', 'đ'),
   ('Ā', 'ā'), ('Á', 'á'), ('Ǎ', 'ǎ'), ('À', 'à'),
   ('Ē', 'ē'), ('É', 'é'), ('Ě', 'ě'), ('È', 'è'),
   ('Ī', 'ī'), ('Í', 'í'), ('Ǐ', 'ǐ'), ('Ì', 'ì'),
   ('Ō', 'ō'), ('Ó', 'ó'), ('Ǒ', 'ǒ'), ('Ò', 'ò'),
   ('Ū', 'ū'), ('Ú', 'ú'), ('Ǔ', 'ǔ'), ('Ù', 'ù'),
   ('Ǖ', 'ǖ'), ('Ǘ', 'ǘ'), ('Ǚ', 'ǚ'), ('Ǜ', 'ǜ')]

/-- Character-wise model of `toLowerCase`. -/
def toLowerCh (c : Char) : Char :=
  ((lowerPairs.find? (fun p => p.1 == c)).map (fun p => p.2)).getD c

/-- Model of `String.prototype.toLowerCase`. -/
def jsToLowerStr (l : Str) : Str :=
  l.map toLowerCh

/-- NFD decomposition table for the precomposed pinyin vowels (both cases).
Every other character the program encounters is NFD-inert. -/
def nfdPairs : List (Char × List Char) :=
  [('ā', ['a', '\u0304']), ('á', ['a', '\u0301']), ('ǎ', ['a', '\u030c']), ('à', ['a', '\u0300']),
   ('ē', ['e', '\u0304']), ('é', ['e', '\u0301']), ('ě', ['e', '\u030c']), ('è', ['e', '\u0300']),
   ('ī', ['i', '\u0304']), ('í', ['i', '\u0301']), ('ǐ', ['i', '\u030c']), ('ì', ['i', '\u0300']),
   ('ō', ['o', '\u0304']), ('ó', ['o', '\u0301']), ('ǒ', ['o', '\u030c']), ('ò', ['o', '\u0300']),
   ('ū', ['u', '\u0304']), ('ú', ['u', '\u0301']), ('ǔ', ['u', '\u030c']), ('ù', ['u', '\u0300']),
   ('ü', ['u', '\u0308']),
   ('ǖ', ['u', '\u0308', '\u0304']), ('ǘ', ['u', '\u0308', '\u0301']),
   ('ǚ', ['u', '\u0308', '\u030c']), ('ǜ', ['u', '\u0308', '\u0300']),
   ('Ā', ['A', '\u0304']), ('Á', ['A', '\u0301']), ('Ǎ', ['A', '\u030c']), ('À', ['A', '\u0300']),
   ('Ē', ['E', '\u0304']), ('É', ['E', '\u0301']), ('Ě', ['E', '\u030c']), ('È', ['E', '\u0300']),
   ('Ī', ['I', '\u0304']), ('Í', ['I', '\u0301']), ('Ǐ', ['I', '\u030c']), ('Ì', ['I', '\u0300']),
   ('Ō', ['O', '\u0304']), ('Ó', ['O', '\u0301']), ('Ǒ', ['O', '\u030c']), ('Ò', ['O', '\u0300']),
   ('Ū', ['U', '\u0304']), ('Ú', ['U', '\u0301']), ('Ǔ', ['U', '\u030c']), ('Ù', ['U', '\u0300']),
   ('Ü', ['U', '\u0308']),
   ('Ǖ', ['U', '\u0308', '\u0304']), ('Ǘ', ['U', '\u0308', '\u0301']),
   ('Ǚ', ['U', '\u0308', '\u030c']), ('Ǜ', ['U', '\u0308', '\u0300'])]

/-- Character-wise model of NFD. -/
def nfdCh (c : Char) : List Char :=
  ((nfdPairs.find? (fun p => p.1 == c)).map (fun p => p.2)).getD [c]

/-- Model of `String.prototype.normalize("NFD")`. -/
def nfdStr (l : Str) : Str :=
  l.flatMap nfdCh

/-- The combining-mark range `[̀-ͯ]` stripped by both normalizers. -/
def isCombining (c : Char) : Bool :=
  0x300 ≤ c.toNat && c.toNat ≤ 0x36F

/-- One global single-character replacement, `String.prototype.replace(/t/g, r)`
applied character-wise. -/
def replOne (t r c : Char) : Char :=
  if c = t then r else c

/-- The body of `normalizePinyin` before the final `.trim()`: lower-case, NFD,
strip the combining range, then the five `ü`-family replacements.  The five
replacement patterns are the precomposed characters (bytes `c3 bc`, `c7 96`,
`c7 98`, `c7 9a`, `c7 9c` in the source file). -/
def pinyinPipe (text : Str) : Str :=
  List.map (replOne 'ǜ' 'v')
    (List.map (replOne 'ǚ' 'v')
      (List.map (replOne 'ǘ' 'v')
        (List.map (replOne 'ǖ' 'v')
          (List.map (replOne 'ü' 'v')
            (List.filter (fun c => !isCombining c)
              (nfdStr (jsToLowerStr text)))))))

/-- `normalizePinyin` from `src/features/editor/domain/hanzi.ts` (linewise
identical to `DictionaryService.normalizePinyin`): the replacement chain of
`pinyinPipe` followed by `.trim()`. -/
def normalizePinyin (text : Str) : Str :=
  jsTrim (pinyinPipe text)

/-- Claim C1: `normalizePinyin` is said to map `ü` (and its toned variants) to
`v`, with `normalizePinyin "lǜ" = normalizePinyin "lv" = "lv"`.  In the code
the five `/ü/`-family replacements use precomposed patterns but run after NFD
decomposition has rewritten `ǜ` to `u`+`̈`+`̀` and the combining-mark
strip has deleted both marks, so they can never fire: `normalizePinyin "lǜ"`
is `"lu"`, not `"lv"`, and it differs from `normalizePinyin "lv" = "lv"`. -/
theorem normalizePinyin_ue_to_u :
    normalizePinyin "lǜ".data = "lu".data ∧
    normalizePinyin "lv".data = "lv".data ∧
    normalizePinyin "lǜ".data ≠ normalizePinyin "lv".data ∧
    normalizePinyin "ü".data = "u".data := by
  decide

/-!
## DOM cursor helpers (`hanzi.ts`)

A DOM node is modelled by the two fields the code reads: `nodeType` and
`textContent` (where JavaScript `null` and `""` are both "no content"; the
code tests `!node.textContent`, which is true for both, so the model keeps
the `Option` and tests `getD [] = []`).
-/

structure DomNode where
  nodeType : Nat
  textContent : Option Str
deriving DecidableEq

/-- `Node.TEXT_NODE`. -/
def textNodeType : Nat := 3

/-- The character class `[a-zA-ZüÜvV]` of `getPinyinAtCursor`. -/
def pinyinLetter (c : Char) : Bool :=
  ('a' ≤ c && c ≤ 'z') || ('A' ≤ c && c ≤ 'Z') || c = 'ü' || c = 'Ü' || c = 'v' || c = 'V'

/-- `getPinyinAtCursor` from `hanzi.ts`: take the text before `cursorPos`,
match `/([a-zA-ZüÜvV]+)$/` (the longest trailing run of the class, modelled by
`takeWhile` on the reversed list), and return the match with its start
offset. -/
def getPinyinAtCursor (node : DomNode) (cursorPos : Nat) : Option (Str × Nat) :=
  if node.nodeType ≠ textNodeType ∨ node.textContent.getD [] = [] then
    none
  else
    let textBefore := (node.textContent.getD []).take cursorPos
    let m := (textBefore.reverse.takeWhile pinyinLetter).reverse
    if m.length ≥ 1 then some (m, cursorPos - m.length) else none

/-- `insertHanziAtCursor` from `hanzi.ts`: splice `hanzi` over the buffer
substring `[pinyinStartPos, cursorPos)`; mutation of `node.textContent` is
modelled by returning the updated node alongside the returned cursor. -/
def insertHanziAtCursor (node : DomNode) (cursorPos pinyinStartPos : Nat) (hanzi : Str) :
    DomNode × Nat :=
  if node.nodeType ≠ textNodeType ∨ node.textContent.getD [] = [] then
    (node, cursorPos)
  else
    let t := node.textContent.getD []
    let textBefore := t.take pinyinStartPos
    let textAfter := t.drop cursorPos
    ({ node with textContent := some (textBefore ++ hanzi ++ textAfter) },
     pinyinStartPos + hanzi.length)

/-- Claim C7, counterexample to the worked example: in `"wohaoxx"` the offsets
are `w0 o1 h2 a3 o4 x5 x6`, so with `cursorPos = 6` and `pinyinStartPos = 2`
the replaced substring is `"haox"` and the result is `"wo你好x"`, not the
claimed `"wo你好xx"` (which would require `cursorPos = 5`). -/
theorem insertHanziAtCursor_example_off_by_one :
    insertHanziAtCursor ⟨textNodeType, some "wohaoxx".data⟩ 6 2 "你好".data =
      (⟨textNodeType, some "wo你好x".data⟩, 2 + "你好".data.length) ∧
    "wo你好x".data ≠ "wo你好xx".data := by
  decide

/-- Claim C7 (amended: the worked example at `cursorPos = 6` yields
`"wo你好x"`, replacing `"haox"`): on a text node with content and
`pinyinStartPos ≤ cursorPos ≤ length`, `insertHanziAtCursor` replaces the
substring `[pinyinStartPos, cursorPos)` by `hanzi`, leaves the text outside
that range unchanged, and returns `pinyinStartPos + length hanzi`; on a
non-text node or one without content it changes nothing and returns the
original `cursorPos`. -/
theorem insertHanziAtCursor_spec (t : Str) (cursorPos pinyinStartPos : Nat) (hanzi : Str)
    (hpc : pinyinStartPos ≤ cursorPos) (hct : cursorPos ≤ t.length) (ht : t ≠ []) :
    insertHanziAtCursor ⟨textNodeType, some t⟩ cursorPos pinyinStartPos hanzi =
      (⟨textNodeType, some (t.take pinyinStartPos ++ hanzi ++ t.drop cursorPos)⟩,
       pinyinStartPos + hanzi.length) ∧
    (t.take pinyinStartPos ++ hanzi ++ t.drop cursorPos).take pinyinStartPos =
      t.take pinyinStartPos ∧
    (t.take pinyinStartPos ++ hanzi ++ t.drop cursorPos).drop
        (pinyinStartPos + hanzi.length) = t.drop cursorPos ∧
    (∀ n : DomNode, (n.nodeType ≠ textNodeType ∨ n.textContent.getD [] = []) →
      insertHanziAtCursor n cursorPos pinyinStartPos hanzi = (n, cursorPos)) := by
  have hlen : (t.take pinyinStartPos).length = pinyinStartPos :=
    List.length_take_of_le (Nat.le_trans hpc hct)
  refine ⟨?_, ?_, ?_, ?_⟩
  · rw [insertHanziAtCursor, if_neg (by simp [ht])]
    rfl
  · rw [List.append_assoc, List.take_left' hlen]
  · apply List.drop_left'
    simp [hlen]
  · intro n hn
    rw [insertHanziAtCursor, if_pos hn]

/-- Witness for C7 at the (amended) example: buffer `"wohaoxx"`,
`cursorPos = 6`, `pinyinStartPos = 2`, `hanzi = "你好"` yields `"wo你好x"`
and cursor `2 + 2`. -/
theorem insertHanziAtCursor_spec_witness :
    ((2 : Nat) ≤ 6 ∧ 6 ≤ "wohaoxx".data.length ∧ "wohaoxx".data ≠ []) ∧
    (insertHanziAtCursor ⟨textNodeType, some "wohaoxx".data⟩ 6 2 "你好".data =
      (⟨textNodeType, some ("wohaoxx".data.take 2 ++ "你好".data ++ "wohaoxx".data.drop 6)⟩,
       2 + "你好".data.length) ∧
     ("wohaoxx".data.take 2 ++ "你好".data ++ "wohaoxx".data.drop 6).take 2 =
       "wohaoxx".data.take 2 ∧
     ("wohaoxx".data.take 2 ++ "你好".data ++ "wohaoxx".data.drop 6).drop
         (2 + "你好".data.length) = "wohaoxx".data.drop 6 ∧
     (∀ n : DomNode, (n.nodeType ≠ textNodeType ∨ n.textContent.getD [] = []) →
       insertHanziAtCursor n 6 2 "你好".data = (n, 6))) ∧
    "wohaoxx".data.take 2 ++ "你好".data ++ "wohaoxx".data.drop 6 = "wo你好x".data := by
  refine ⟨by decide, insertHanziAtCursor_spec _ 6 2 _ (by decide) (by decide) (by decide), by decide⟩

/-- The first element surviving `dropWhile p` fails `p`. -/
theorem head?_dropWhile_false (p : Char → Bool) :
    ∀ (l : Str) (a : Char), (l.dropWhile p).head? = some a → p a = false := by
  intro l
  induction l with
  | nil => intro a h; simp [List.dropWhile] at h
  | cons c rest ih =>
    intro a h
    rw [List.dropWhile_cons] at h
    by_cases hc : p c
    · rw [if_pos hc] at h
      exact ih a h
    · rw [if_neg hc] at h
      simp only [List.head?_cons, Option.some.injEq] at h
      subst h
      exact Bool.eq_false_iff.mpr hc

/-- If `takeWhile p` is empty then the head of the list fails `p`. -/
theorem takeWhile_nil_head_false (p : Char → Bool) (l : Str) (h : l.takeWhile p = [])
    (a : Char) (ha : l.head? = some a) : p a = false := by
  cases l with
  | nil => simp at ha
  | cons c rest =>
    simp only [List.head?_cons, Option.some.injEq] at ha
    rw [List.takeWhile_cons] at h
    by_cases hc : p c
    · rw [if_pos hc] at h
      simp at h
    · rw [← ha]
      exact Bool.eq_false_iff.mpr hc

/-- Claim C8: on a text node with content and `cursorPos ≤ length`,
`getPinyinAtCursor` returns the longest trailing run of `[a-zA-ZüÜvV]`
characters of the text before `cursorPos`, with start offset `cursorPos -
length(match)`; it returns `none` exactly when that run is empty (i.e. the
character just before the cursor is not in the class), and unconditionally
`none` on a non-text node or one without content.  "Longest" is expressed by:
the match is a trailing run of class characters, and the character preceding
it (the last one of the untouched prefix), if any, is not in the class. -/
theorem getPinyinAtCursor_spec (t : Str) (cursorPos : Nat)
    (ht : t ≠ []) (hcp : cursorPos ≤ t.length) :
    (∀ m s, getPinyinAtCursor ⟨textNodeType, some t⟩ cursorPos = some (m, s) →
      m ≠ [] ∧ (∀ c ∈ m, pinyinLetter c = true) ∧
      s = cursorPos - m.length ∧ s + m.length = cursorPos ∧
      t.take cursorPos = (t.take cursorPos).take s ++ m ∧
      (∀ c ∈ ((t.take cursorPos).take s).getLast?, pinyinLetter c = false)) ∧
    (getPinyinAtCursor ⟨textNodeType, some t⟩ cursorPos = none →
      ∀ c ∈ (t.take cursorPos).getLast?, pinyinLetter c = false) ∧
    (∀ n : DomNode, (n.nodeType ≠ textNodeType ∨ n.textContent.getD [] = []) →
      getPinyinAtCursor n cursorPos = none) := by
  have hcond : ¬((⟨textNodeType, some t⟩ : DomNode).nodeType ≠ textNodeType ∨
      (⟨textNodeType, some t⟩ : DomNode).textContent.getD [] = []) := by
    simp [ht]
  have hunfold : getPinyinAtCursor ⟨textNodeType, some t⟩ cursorPos =
      (if ((t.take cursorPos).reverse.takeWhile pinyinLetter).reverse.length ≥ 1 then
        some (((t.take cursorPos).reverse.takeWhile pinyinLetter).reverse,
          cursorPos - ((t.take cursorPos).reverse.takeWhile pinyinLetter).reverse.length)
      else none) := by
    rw [getPinyinAtCursor, if_neg hcond]
    rfl
  set tb := t.take cursorPos with htb
  have htbl : tb.length = cursorPos := List.length_take_of_le hcp
  set m₀ := (tb.reverse.takeWhile pinyinLetter).reverse with hm₀
  have hm₀le : m₀.length ≤ cursorPos := by
    rw [hm₀, List.length_reverse]
    calc (tb.reverse.takeWhile pinyinLetter).length ≤ tb.reverse.length :=
          (List.takeWhile_sublist _).length_le
    _ = cursorPos := by rw [List.length_reverse, htbl]
  have hdecomp : tb = (tb.reverse.dropWhile pinyinLetter).reverse ++ m₀ := by
    conv_lhs => rw [← List.reverse_reverse tb,
      ← List.takeWhile_append_dropWhile (p := pinyinLetter) (l := tb.reverse)]
    rw [List.reverse_append]
  refine ⟨?_, ?_, ?_⟩
  · intro m s hms
    rw [hunfold] at hms
    by_cases hlen : m₀.length ≥ 1
    · rw [if_pos hlen] at hms
      simp only [Option.some.injEq, Prod.mk.injEq] at hms
      obtain ⟨hm, hs⟩ := hms
      subst hm; subst hs
      have hdl : ((tb.reverse.dropWhile pinyinLetter).reverse).length =
          cursorPos - m₀.length := by
        have := congrArg List.length hdecomp
        rw [List.length_append, htbl] at this
        omega
      have htake : tb.take (cursorPos - m₀.length) =
          (tb.reverse.dropWhile pinyinLetter).reverse := by
        conv_lhs => rw [hdecomp]
        exact List.take_left' hdl
      refine ⟨by intro h; rw [h] at hlen; simp at hlen, ?_, rfl, by omega, ?_, ?_⟩
      · intro c hc
        rw [hm₀, List.mem_reverse] at hc
        exact List.mem_takeWhile_imp hc
      · rw [htake]
        exact hdecomp
      · rw [htake]
        intro c hc
        rw [← List.head?_reverse, List.reverse_reverse] at hc
        exact head?_dropWhile_false _ _ _ hc
    · rw [if_neg hlen] at hms
      exact absurd hms (by simp)
  · intro hnone
    rw [hunfold] at hnone
    by_cases hlen : m₀.length ≥ 1
    · rw [if_pos hlen] at hnone
      exact absurd hnone (by simp)
    · intro c hc
      have hm₀nil : tb.reverse.takeWhile pinyinLetter = [] := by
        have : m₀.length = 0 := by omega
        rw [hm₀, List.length_reverse] at this
        exact List.length_eq_zero.mp this
      rw [← List.head?_reverse] at hc
      exact takeWhile_nil_head_false _ _ hm₀nil _ hc
  · intro n hn
    rw [getPinyinAtCursor, if_pos hn]

/-- Witness for C8 at the spec's examples: `"nihao"` with cursor 5 gives
`("nihao", 0)`; `"ni hao"` with cursor 6 gives `("hao", 3)`, stopping at the
space. -/
theorem getPinyinAtCursor_spec_witness :
    ("ni hao".data ≠ [] ∧ 6 ≤ "ni hao".data.length) ∧
    ((∀ m s, getPinyinAtCursor ⟨textNodeType, some "ni hao".data⟩ 6 = some (m, s) →
      m ≠ [] ∧ (∀ c ∈ m, pinyinLetter c = true) ∧
      s = 6 - m.length ∧ s + m.length = 6 ∧
      "ni hao".data.take 6 = ("ni hao".data.take 6).take s ++ m ∧
      (∀ c ∈ (("ni hao".data.take 6).take s).getLast?, pinyinLetter c = false)) ∧
    (getPinyinAtCursor ⟨textNodeType, some "ni hao".data⟩ 6 = none →
      ∀ c ∈ ("ni hao".data.take 6).getLast?, pinyinLetter c = false) ∧
    (∀ n : DomNode, (n.nodeType ≠ textNodeType ∨ n.textContent.getD [] = []) →
      getPinyinAtCursor n 6 = none)) ∧
    getPinyinAtCursor ⟨textNodeType, some "ni hao".data⟩ 6 = some ("hao".data, 3) ∧
    getPinyinAtCursor ⟨textNodeType, some "nihao".data⟩ 5 = some ("nihao".data, 0) := by
  exact ⟨by decide, getPinyinAtCursor_spec "ni hao".data 6 (by decide) (by decide),
    by decide, by decide⟩

/-!
## Idempotence of `normalizePinyin` (C9)

The pipeline before the trim acts character-wise (`gCh`); every character it
can emit is a fixed point of the whole pipeline, so running the pipeline twice
is the same as running it once, and trimming is idempotent.
-/

/-- The action of the pre-trim pipeline on a single character. -/
def gCh (c : Char) : List Char :=
  List.map (replOne 'ǜ' 'v')
    (List.map (replOne 'ǚ' 'v')
      (List.map (replOne 'ǘ' 'v')
        (List.map (replOne 'ǖ' 'v')
          (List.map (replOne 'ü' 'v')
            (List.filter (fun d => !isCombining d) (nfdCh (toLowerCh c)))))))

/-- All characters at which some stage of the pipeline is not the identity. -/
def pipeKeys : List Char :=
  lowerPairs.map (fun p => p.1) ++ nfdPairs.map (fun p => p.1)

theorem pinyinPipe_eq_flatMap (s : Str) : pinyinPipe s = s.flatMap gCh := by
  induction s with
  | nil => rfl
  | cons c rest ih =>
    rw [List.flatMap_cons, ← ih]
    simp only [pinyinPipe, gCh, jsToLowerStr, nfdStr, List.map_cons, List.flatMap_cons,
      List.filter_append, List.map_append]

theorem toLowerCh_default (c : Char) (h : ∀ p ∈ lowerPairs, p.1 ≠ c) : toLowerCh c = c := by
  rw [toLowerCh, List.find?_eq_none.mpr (by intro x hx; simpa using h x hx)]
  rfl

theorem nfdCh_default (c : Char) (h : ∀ p ∈ nfdPairs, p.1 ≠ c) : nfdCh c = [c] := by
  rw [nfdCh, List.find?_eq_none.mpr (by intro x hx; simpa using h x hx)]
  rfl

set_option maxRecDepth 4096 in
/-- On the finitely many characters the tables touch, every character the
pipeline emits is a fixed point of the pipeline. -/
theorem gCh_keys : ∀ c ∈ pipeKeys, ∀ d ∈ gCh c, gCh d = [d] := by
  decide

theorem gCh_default (c : Char) (h : c ∉ pipeKeys) :
    gCh c = if isCombining c then [] else [c] := by
  have hmem : ∀ x : Char, x ∈ pipeKeys → c ≠ x := fun x hx hcx => h (hcx ▸ hx)
  have h1 : toLowerCh c = c := by
    apply toLowerCh_default
    intro p hp hpc
    exact hmem p.1 (by rw [pipeKeys, List.mem_append]; exact Or.inl (List.mem_map_of_mem _ hp)) hpc.symm
  have h2 : nfdCh c = [c] := by
    apply nfdCh_default
    intro p hp hpc
    exact hmem p.1 (by rw [pipeKeys, List.mem_append]; exact Or.inr (List.mem_map_of_mem _ hp)) hpc.symm
  have hrepl : ∀ t : Char, t ∈ nfdPairs.map (fun p => p.1) → replOne t 'v' c = c := by
    intro t htmem
    rw [replOne, if_neg]
    exact hmem t (by rw [pipeKeys, List.mem_append]; exact Or.inr htmem)
  rw [gCh, h1, h2]
  by_cases hcomb : isCombining c
  · rw [if_pos hcomb]
    simp [hcomb]
  · rw [if_neg hcomb]
    simp only [List.filter_cons, List.filter_nil, hcomb, Bool.not_false, if_pos, List.map_cons,
      List.map_nil, List.cons.injEq, and_true]
    rw [hrepl 'ü' (by decide), hrepl 'ǖ' (by decide), hrepl 'ǘ' (by decide),
      hrepl 'ǚ' (by decide), hrepl 'ǜ' (by decide)]

/-- Every character emitted by the pipeline is a pipeline fixed point. -/
theorem gCh_fix (c d : Char) (hd : d ∈ gCh c) : gCh d = [d] := by
  by_cases hc : c ∈ pipeKeys
  · exact gCh_keys c hc d hd
  · have hdef := gCh_default c hc
    rw [hdef] at hd
    by_cases hcomb : isCombining c
    · rw [if_pos hcomb] at hd
      simp at hd
    · rw [if_neg hcomb] at hd
      simp only [List.mem_singleton] at hd
      subst hd
      rw [hdef, if_neg hcomb]

theorem flatMap_fix (l : Str) (h : ∀ d ∈ l, gCh d = [d]) : l.flatMap gCh = l := by
  induction l with
  | nil => rfl
  | cons c rest ih =>
    rw [List.flatMap_cons, h c (List.mem_cons_self _ _), ih (fun d hd => h d (List.mem_cons_of_mem _ hd))]
    rfl

theorem mem_jsTrim (l : Str) (d : Char) (hd : d ∈ jsTrim l) : d ∈ l := by
  rw [jsTrim, List.mem_reverse] at hd
  have h1 := (List.dropWhile_sublist (l := (l.dropWhile isJsWs).reverse) isJsWs).mem hd
  rw [List.mem_reverse] at h1
  exact (List.dropWhile_sublist isJsWs).mem h1

theorem dropWhile_dropWhile (p : Char → Bool) (l : Str) :
    (l.dropWhile p).dropWhile p = l.dropWhile p := by
  induction l with
  | nil => rfl
  | cons c rest ih =>
    rw [List.dropWhile_cons]
    by_cases hc : p c
    · rw [if_pos hc, ih]
    · rw [if_neg hc, List.dropWhile_cons, if_neg hc]

theorem jsTrim_idem (l : Str) : jsTrim (jsTrim l) = jsTrim l := by
  have hfix : (jsTrim l).dropWhile isJsWs = jsTrim l := by
    obtain ⟨tt, htt⟩ := List.dropWhile_suffix (l := (l.dropWhile isJsWs).reverse) isJsWs
    have hA : l.dropWhile isJsWs = jsTrim l ++ tt.reverse := by
      rw [jsTrim, ← List.reverse_append, htt, List.reverse_reverse]
    cases hB : jsTrim l with
    | nil => rfl
    | cons b B =>
      have hhead : (l.dropWhile isJsWs).head? = some b := by
        rw [hA, hB]
        rfl
      have hb : isJsWs b = false := head?_dropWhile_false _ _ _ hhead
      rw [List.dropWhile_cons, if_neg (by simp [hb])]
  conv_lhs => rw [jsTrim, hfix, jsTrim]
  rw [List.reverse_reverse, dropWhile_dropWhile, ← jsTrim]

/-- Claim C9: `normalizePinyin` is idempotent. -/
theorem normalizePinyin_idem (s : Str) :
    normalizePinyin (normalizePinyin s) = normalizePinyin s := by
  rw [normalizePinyin, normalizePinyin, pinyinPipe_eq_flatMap (jsTrim (pinyinPipe s))]
  rw [flatMap_fix _ ?_, jsTrim_idem]
  intro d hd
  have hds : d ∈ pinyinPipe s := mem_jsTrim _ _ hd
  rw [pinyinPipe_eq_flatMap] at hds
  obtain ⟨c, _, hdc⟩ := List.mem_flatMap.mp hds
  exact gCh_fix c d hdc

/-!
## Dictionary data model (`dictionary.service.ts`)

`Record<string, DictionaryResult>` objects are modelled as insertion-ordered
association lists (`Table`); `Object.entries`/`Object.values` enumerate in
insertion order for string keys, and assigning to an existing key updates it
in place (`objInsert`).  Optional TypeScript fields are `Option`s; the TS
field `example` is called `exampleStr` / `exampleRec` because `example` is a
Lean keyword.
-/

structure DictionaryResult where
  word : Str
  pinyin : Str
  meaning : List Str
  exampleStr : Option Str
  traditional : Option Str
  score : Option Int
  matchType : Option String
  isShorthand : Option Bool
  syllableCount : Option Nat
deriving DecidableEq

structure HSKWord where
  hanzi : Str
  pinyin : Str
deriving DecidableEq

structure HSKExample where
  hanzi : Str
  pinyin : Str
  meaning : Str
deriving DecidableEq

structure HSKEntry where
  id : Str
  index : Int
  word : HSKWord
  meaning : Str
  exampleRec : Option HSKExample
deriving DecidableEq

abbrev Table := List (Str × DictionaryResult)

/-- `normalizeText`: NFD, strip combining marks, `đ/Đ → d`, lower-case, trim;
empty for an absent/empty input (the `if (!s) return ""` guard). -/
def normalizeText (s : Str) : Str :=
  if s = [] then []
  else
    jsTrim (jsToLowerStr
      (List.map (replOne 'Đ' 'd')
        (List.map (replOne 'đ' 'd')
          (List.filter (fun c => !isCombining c) (nfdStr s)))))

/-- Model of `String.prototype.includes`. -/
def jsIncludes (l sub : Str) : Bool :=
  if sub.isPrefixOf l then true
  else
    match l with
    | [] => false
    | _ :: t => jsIncludes t sub

/-- Model of `String.prototype.split(/[class]+/)`: split on maximal runs of
separator characters, keeping an empty piece at either end when the string
starts/ends with a separator (`goSplit` carries "currently inside a run"). -/
def goSplit (p : Char → Bool) : Str → Str → Bool → List Str
  | [], acc, _ => [acc.reverse]
  | c :: rest, acc, inRun =>
    if p c then
      if inRun then goSplit p rest acc true
      else acc.reverse :: goSplit p rest [] true
    else
      goSplit p rest (c :: acc) false

def splitRuns (p : Char → Bool) (l : Str) : List Str :=
  goSplit p l [] false

/-- `normalized.split(/\s+/).filter(s => s.length > 0)`. -/
def splitWs (l : Str) : List Str :=
  (splitRuns isJsWs l).filter (fun s => s ≠ [])

/-- Model of `Array.prototype.join(" ")`. -/
def joinSpace : List Str → Str
  | [] => []
  | [m] => m
  | m :: rest => m ++ ' ' :: joinSpace rest

/-- The separator class `[\s,.;:()!]` of the meanings tokenizer. -/
def isTokenSep (c : Char) : Bool :=
  isJsWs c || c = ',' || c = '.' || c = ';' || c = ':' || c = '(' || c = ')' || c = '!'

/-- `isShorthandQuery`: length ≥ 2 and matches `/^[a-z]+$/`. -/
def isShorthandQuery (query : Str) : Bool :=
  decide (query.length ≥ 2) && query.all (fun c => 'a' ≤ c && c ≤ 'z')

/-- `matchesShorthand`: the concatenation of each syllable's first letter
starts with the shorthand (`s[0]` of a non-empty syllable is its first
character, modelled by `take 1`). -/
def matchesShorthand (pinyin shorthand : Str) : Bool :=
  let normalized := normalizePinyin pinyin
  let syllables := splitWs normalized
  let firstLetters := syllables.flatMap (fun s => s.take 1)
  shorthand.isPrefixOf firstLetters

/-- Comparator `sortBySyllables`: `(a.syllableCount ?? 0) - (b.syllableCount
?? 0)`, as a boolean "comes-no-later" relation (JavaScript's stable sort with
comparator `c` orders `a` before `b` when `c(a,b) ≤ 0`). -/
def sylLE (a b : DictionaryResult) : Bool :=
  decide ((a.syllableCount.getD 0 : Int) - (b.syllableCount.getD 0 : Int) ≤ 0)

/-- The classification loop of `searchHanziByPinyin`: one pass over
`Object.values(cache)` distributing each value into the exact / partial /
shorthand bucket (first match wins, `continue` after a push). -/
def classifyEntries (nq : Str) (isSh : Bool) : List DictionaryResult →
    List DictionaryResult × List DictionaryResult × List DictionaryResult
  | [] => ([], [], [])
  | v :: rest =>
    let r := classifyEntries nq isSh rest
    let pinyin := v.pinyin
    let normalizedPinyin := normalizePinyin pinyin
    let syllables := splitWs normalizedPinyin
    if normalizedPinyin = nq || syllables.contains nq then
      ({ v with matchType := some "exact", syllableCount := some syllables.length } :: r.1,
       r.2.1, r.2.2)
    else if nq.isPrefixOf normalizedPinyin || syllables.any (fun s => nq.isPrefixOf s) then
      (r.1,
       { v with matchType := some "partial", syllableCount := some syllables.length } :: r.2.1,
       r.2.2)
    else if isSh && matchesShorthand pinyin nq then
      (r.1, r.2.1,
       { v with matchType := some "shorthand", isShorthand := some true,
                syllableCount := some syllables.length } :: r.2.2)
    else
      r

/-- `searchHanziByPinyin` on a loaded table: normalize the query, classify all
values, sort each bucket by syllable count, concatenate exact ++ partial ++
shorthand and keep the first 10. -/
def searchHanziByPinyin (table : Table) (query : Str) : List DictionaryResult :=
  let normalizedQuery := normalizePinyin query
  if normalizedQuery = [] then []
  else
    let isSh := isShorthandQuery normalizedQuery
    let r := classifyEntries normalizedQuery isSh (table.map (fun p => p.2))
    ((r.1.mergeSort sylLE ++ r.2.1.mergeSort sylLE ++ r.2.2.mergeSort sylLE).take 10)

/-- The first write to the mutable `score` (initialized to `-1`):
`if (key === query) score = 1000; else if (key.includes(query) ||
trad.includes(query)) score = 950`. -/
def scoreKeyTier (query key trad : Str) : Int :=
  if key = query then 1000
  else if jsIncludes key query || jsIncludes trad query then 950
  else -1

/-- The meanings block.  In the code this `if` is NOT guarded by `score < 0`,
so when it fires it overwrites whatever the key tier wrote. -/
def scoreMeaningsTier (q nq meaningsCombined : Str) (prev : Int) : Int :=
  if meaningsCombined = q || normalizeText meaningsCombined = nq then 900
  else if jsIncludes meaningsCombined q || jsIncludes (normalizeText meaningsCombined) nq then
    if (splitRuns isTokenSep meaningsCombined).contains q ||
        (splitRuns isTokenSep (normalizeText meaningsCombined)).contains nq then 850
    else 800
  else prev

/-- The pinyin block, guarded by `if (score < 0)`. -/
def scorePinyinTier (q nq pinyin : Str) (prev : Int) : Int :=
  if prev < 0 then
    if pinyin = q || normalizeText pinyin = nq then 750
    else if jsIncludes pinyin q || jsIncludes (normalizeText pinyin) nq then 700
    else prev
  else prev

/-- The example block, guarded by `if (score < 0)`. -/
def scoreExampleTier (q nq ex : Str) (prev : Int) : Int :=
  if prev < 0 then
    if jsIncludes ex q || jsIncludes (normalizeText ex) nq then 600
    else prev
  else prev

/-- The per-entry score of `searchDictionary`.  `query` is the raw query, `q`
its lowercased trimmed form, `nq` its `normalizeText` form.  The four tier
functions are the four sequential writes to the mutable `score` variable (the
code computes `normMeanings = normalizeText(meaningsCombined)` once; the tier
functions recompute it, which is the same value since `normalizeText` is
pure). -/
def scoreEntry (query q nq : Str) (key : Str) (value : DictionaryResult) : Int :=
  let pinyin := jsToLowerStr value.pinyin
  let meaningsCombined := jsToLowerStr (joinSpace value.meaning)
  let ex := jsToLowerStr (value.exampleStr.getD [])
  let trad := jsToLowerStr (value.traditional.getD [])
  scoreExampleTier q nq ex
    (scorePinyinTier q nq pinyin
      (scoreMeaningsTier q nq meaningsCombined
        (scoreKeyTier query key trad)))

/-- The retained, scored entries of `searchDictionary`, in table order
(`results.push({...value, score})` for every entry with `score > 0`). -/
def searchResultsFor (table : Table) (query : Str) : List DictionaryResult :=
  let q := jsTrim (jsToLowerStr query)
  let nq := normalizeText q
  table.filterMap (fun kv =>
    let s := scoreEntry query q nq kv.1 kv.2
    if s > 0 then some { kv.2 with score := some s } else none)

/-- The sort comparator of `searchDictionary`: score descending (the guard
`b.score !== a.score` compares the raw optional fields), ties by ascending
word length, as a boolean "comes-no-later" relation. -/
def dictLE (a b : DictionaryResult) : Bool :=
  if a.score ≠ b.score then
    decide ((b.score.getD 0 : Int) - (a.score.getD 0 : Int) ≤ 0)
  else
    decide ((a.word.length : Int) - (b.word.length : Int) ≤ 0)

/-- `searchDictionary` on a loaded table: score every entry, keep positive
scores, sort, keep the first 50. -/
def searchDictionary (table : Table) (query : Str) : List DictionaryResult :=
  ((searchResultsFor table query).mergeSort dictLE).take 50

/-!
## Dictionary loader (`DictionaryService.loadData`)

The service's two mutable fields are `cache` and `loadingPromise`.  The
single-threaded event loop is modelled by two atomic events: a `loadData`
call (its synchronous prefix: the two guards, and, when a load starts,
issuing the six fetches and storing the new promise, identified by a fresh
`Nat`), and the settlement of the in-flight task (`settle`), which on success
installs the merged table (the `catch` never runs, so `loadingPromise` is NOT
reset) and on failure resets `loadingPromise` (the `try` body never reached
`this.cache = dictionary`, so the cache is untouched).  `loadData` returns
what the caller awaits and the list of fetched levels.
-/

/-- `{...dictionary[key] = value}` on an insertion-ordered string-keyed
object: update the first occurrence in place, else append. -/
def objInsert : Table → Str → DictionaryResult → Table
  | [], k, v => [(k, v)]
  | (k', v') :: t, k, v => if k' = k then (k, v) :: t else (k', v') :: objInsert t k v

/-- The `DictionaryResult` built from one HSK entry (meaning wrapped in a
one-element list, example formatted as `"<hanzi> (<pinyin>) - <meaning>"`). -/
def buildEntry (e : HSKEntry) : DictionaryResult :=
  { word := e.word.hanzi
    pinyin := e.word.pinyin
    meaning := [e.meaning]
    exampleStr := e.exampleRec.map (fun ex =>
      ex.hanzi ++ " (".data ++ ex.pinyin ++ ") - ".data ++ ex.meaning)
    traditional := none
    score := none
    matchType := none
    isShorthand := none
    syllableCount := none }

/-- Merging the six fetched level collections into one keyed table, in order
(later entries with the same Hanzi key overwrite earlier ones). -/
def mergeBatches (batches : List (List HSKEntry)) : Table :=
  batches.flatten.foldl (fun t e => objInsert t e.word.hanzi (buildEntry e)) []

structure ServiceState where
  cache : Option Table
  loadingPromise : Option Nat
deriving DecidableEq

inductive LoadCallResult where
  | done
  | awaits (id : Nat)
deriving DecidableEq

inductive LoadOutcome where
  | success (batches : List (List HSKEntry))
  | failure

/-- The six fetched levels `hsk1.json … hsk6.json`. -/
def hskLevels : List Nat := [1, 2, 3, 4, 5, 6]

/-- The synchronous prefix of a `loadData` call. -/
def loadData (s : ServiceState) (freshId : Nat) : ServiceState × LoadCallResult × List Nat :=
  if s.cache.isSome then (s, .done, [])
  else
    match s.loadingPromise with
    | some id => (s, .awaits id, [])
    | none => ({ s with loadingPromise := some freshId }, .awaits freshId, hskLevels)

/-- Settlement of the in-flight load. -/
def settle (s : ServiceState) (o : LoadOutcome) : ServiceState :=
  match o with
  | .success batches => { s with cache := some (mergeBatches batches) }
  | .failure => { s with loadingPromise := none }

def freshService : ServiceState := ⟨none, none⟩

/-- A burst of `loadData` calls (one per fresh id) with no settlement in
between; returns the final state, all fetches issued, and what each caller
awaits. -/
def runCalls (s : ServiceState) : List Nat → ServiceState × List Nat × List LoadCallResult
  | [] => (s, [], [])
  | id :: ids =>
    let r1 := loadData s id
    let r2 := runCalls r1.1 ids
    (r2.1, r1.2.2 ++ r2.2.1, r1.2.1 :: r2.2.2)

/-- `searchHanziByPinyin` as the caller sees it: after awaiting the load, an
absent cache yields no results. -/
def searchHanziOn (s : ServiceState) (query : Str) : List DictionaryResult :=
  match s.cache with
  | none => []
  | some table => searchHanziByPinyin table query

/-- `searchDictionary` as the caller sees it. -/
def searchDictOn (s : ServiceState) (query : Str) : List DictionaryResult :=
  match s.cache with
  | none => []
  | some table => searchDictionary table query

/-- Keyed lookup in a table (`cache[key]`). -/
def lookupTable (t : Table) (k : Str) : Option DictionaryResult :=
  (t.find? (fun p => p.1 == k)).map (fun p => p.2)

theorem lookupTable_cons (pk : Str) (pv : DictionaryResult) (t : Table) (k : Str) :
    lookupTable ((pk, pv) :: t) k = if pk = k then some pv else lookupTable t k := by
  unfold lookupTable
  by_cases h : pk = k
  · rw [List.find?_cons_of_pos _ (by simp [h]), if_pos h]
    rfl
  · rw [List.find?_cons_of_neg _ (by simp [h]), if_neg h]

theorem lookupTable_objInsert (t : Table) (k k' : Str) (v : DictionaryResult) :
    lookupTable (objInsert t k v) k' = if k' = k then some v else lookupTable t k' := by
  induction t with
  | nil =>
    rw [objInsert, lookupTable_cons]
    by_cases h : k = k'
    · rw [if_pos h, if_pos h.symm]
    · rw [if_neg h, if_neg (fun hk => h hk.symm)]
  | cons p t ih =>
    obtain ⟨pk, pv⟩ := p
    rw [objInsert]
    by_cases h1 : pk = k
    · rw [if_pos h1, lookupTable_cons, lookupTable_cons, h1]
      by_cases h : k = k'
      · rw [if_pos h, if_pos h, if_pos h.symm]
      · rw [if_neg h, if_neg h, if_neg (fun hk => h hk.symm)]
    · rw [if_neg h1, lookupTable_cons, lookupTable_cons, ih]
      by_cases h2 : pk = k'
      · have hk : ¬ k' = k := fun hk => h1 (h2.trans hk)
        rw [if_pos h2, if_neg hk, if_pos h2]
      · rw [if_neg h2, if_neg h2]

/-- Last-wins merge semantics: looking up a key in the merged table finds the
entry built from the last source entry carrying that Hanzi. -/
theorem lookupTable_foldl (k : Str) :
    ∀ (l : List HSKEntry) (t : Table),
    lookupTable (l.foldl (fun t e => objInsert t e.word.hanzi (buildEntry e)) t) k =
      match (l.filter (fun e => e.word.hanzi == k)).getLast? with
      | some e => some (buildEntry e)
      | none => lookupTable t k := by
  intro l
  induction l with
  | nil => intro t; simp
  | cons e rest ih =>
    intro t
    rw [List.foldl_cons, ih, List.filter_cons]
    by_cases he : e.word.hanzi = k
    · simp only [he, beq_self_eq_true, if_pos]
      cases hrest : (rest.filter (fun e => e.word.hanzi == k)).getLast? with
      | some e' => simp [List.getLast?_cons, hrest]
      | none =>
        have : (e :: rest.filter (fun e => e.word.hanzi == k)).getLast? = some e := by
          rw [List.getLast?_cons, hrest]
          rfl
        rw [this, lookupTable_objInsert, if_pos rfl]
    · rw [if_neg (by simp [he])]
      cases hrest : (rest.filter (fun e => e.word.hanzi == k)).getLast? with
      | some e' => rfl
      | none =>
        rw [lookupTable_objInsert, if_neg (fun hk => he hk.symm)]

/-- Claim C4, counterexample: after a load started from the fresh state
settles successfully, the in-flight reference is NOT reset to absent — it
still holds the settled promise (only the error path resets it). -/
theorem loadSuccess_marker_not_cleared :
    (settle (loadData freshService 0).1 (.success [])).loadingPromise = some 0 ∧
    ¬ (settle (loadData freshService 0).1 (.success [])).loadingPromise = none := by
  decide

/-- Claim C4 (amended: on success the merged table is installed as the cache,
with last-wins key semantics, while the in-flight reference is left pointing
at the settled operation; it is never consulted again because any later
`loadData` call returns immediately on the installed cache without
fetching). -/
theorem loadSuccess_installs_cache (s : ServiceState) (batches : List (List HSKEntry)) :
    (settle s (.success batches)).cache = some (mergeBatches batches) ∧
    (settle s (.success batches)).loadingPromise = s.loadingPromise ∧
    (∀ k, lookupTable (mergeBatches batches) k =
      match (batches.flatten.filter (fun e => e.word.hanzi == k)).getLast? with
      | some e => some (buildEntry e)
      | none => none) ∧
    (∀ i, loadData (settle s (.success batches)) i =
      (settle s (.success batches), .done, [])) := by
  refine ⟨rfl, rfl, ?_, ?_⟩
  · intro k
    rw [mergeBatches, lookupTable_foldl]
    cases (batches.flatten.filter (fun e => e.word.hanzi == k)).getLast? with
    | some e => rfl
    | none => rfl
  · intro i
    rw [loadData, if_pos]
    rw [settle]
    rfl

/-- Claim C6: the loader is single-flight.  If the cache exists, `loadData`
returns immediately with no fetch; and for any burst of `N ≥ 1` calls from
the fresh state before anything settles, the first call issues the six
fetches and starts promise `id₀`, every caller awaits that same promise, and
no further fetch is issued. -/
theorem loadData_single_flight (id₀ : Nat) (ids : List Nat) :
    (∀ (t : Table) (p : Option Nat) (i : Nat),
      loadData ⟨some t, p⟩ i = (⟨some t, p⟩, .done, [])) ∧
    runCalls freshService (id₀ :: ids) =
      (⟨none, some id₀⟩, hskLevels, (id₀ :: ids).map (fun _ => .awaits id₀)) := by
  constructor
  · intro t p i
    simp [loadData]
  · have hrest : ∀ (ids' : List Nat),
        runCalls ⟨none, some id₀⟩ ids' =
          (⟨none, some id₀⟩, [], ids'.map (fun _ => .awaits id₀)) := by
      intro ids'
      induction ids' with
      | nil => rfl
      | cons j js ih => simp [runCalls, loadData, ih]
    simp [runCalls, loadData, freshService, hrest]

/-- Claim C5: a failed load clears the in-flight marker and leaves the cache
absent; the failure is not re-raised — both search operations observe the
absent cache and return the empty sequence; and a subsequent call starts a
fresh load which, when its fetches succeed, installs the merged table. -/
theorem loadFailure_recovers (s : ServiceState) (q : Str) (i : Nat)
    (batches : List (List HSKEntry)) (hc : s.cache = none) :
    (settle s .failure).cache = none ∧
    (settle s .failure).loadingPromise = none ∧
    searchHanziOn (settle s .failure) q = [] ∧
    searchDictOn (settle s .failure) q = [] ∧
    loadData (settle s .failure) i =
      (⟨none, some i⟩, .awaits i, hskLevels) ∧
    (settle (loadData (settle s .failure) i).1 (.success batches)).cache =
      some (mergeBatches batches) := by
  have hs : settle s .failure = ⟨none, none⟩ := by
    rw [settle, hc]
  refine ⟨by rw [hs], by rw [hs], by rw [hs]; rfl, by rw [hs]; rfl, by rw [hs]; rfl, ?_⟩
  rw [hs]
  rfl

/-- Witness for C5: concrete run from a failing load. -/
theorem loadFailure_recovers_witness :
    ((⟨none, some 7⟩ : ServiceState).cache = none) ∧
    ((settle ⟨none, some 7⟩ .failure).cache = none ∧
     (settle ⟨none, some 7⟩ .failure).loadingPromise = none ∧
     searchHanziOn (settle ⟨none, some 7⟩ .failure) "ni".data = [] ∧
     searchDictOn (settle ⟨none, some 7⟩ .failure) "ni".data = [] ∧
     loadData (settle ⟨none, some 7⟩ .failure) 8 =
       (⟨none, some 8⟩, .awaits 8, hskLevels) ∧
     (settle (loadData (settle ⟨none, some 7⟩ .failure) 8).1 (.success [])).cache =
       some (mergeBatches [])) :=
  ⟨rfl, loadFailure_recovers ⟨none, some 7⟩ "ni".data 8 [] rfl⟩

/-!
## Empty-query behaviour of the two search modes (C10)
-/

theorem jsIncludes_nil (l : Str) : jsIncludes l [] = true := by
  cases l with
  | nil => rfl
  | cons c t => rfl

theorem jsTrim_all_ws (l : Str) (h : ∀ c ∈ l, isJsWs c = true) : jsTrim l = [] := by
  rw [jsTrim, List.dropWhile_eq_nil_iff.mpr h]
  rfl

theorem lowerKeys_not_ws : ∀ p ∈ lowerPairs, isJsWs p.1 = false := by decide

theorem pipeKeys_not_ws : ∀ k ∈ pipeKeys, isJsWs k = false := by decide

theorem ws_not_combining (c : Char) (h : isJsWs c = true) : isCombining c = false := by
  simp only [isJsWs, Bool.or_eq_true, decide_eq_true_eq] at h
  rw [Bool.eq_false_iff]
  intro hc
  rw [isCombining, Bool.and_eq_true, decide_eq_true_eq, decide_eq_true_eq] at hc
  omega

theorem toLowerCh_ws (c : Char) (h : isJsWs c = true) : toLowerCh c = c := by
  apply toLowerCh_default
  intro p hp hpc
  have hf := lowerKeys_not_ws p hp
  rw [hpc, h] at hf
  cases hf

theorem map_id_of_mem (f : Char → Char) (l : Str) (h : ∀ a ∈ l, f a = a) : l.map f = l := by
  induction l with
  | nil => rfl
  | cons c rest ih =>
    rw [List.map_cons, h c (List.mem_cons_self _ _),
      ih (fun a ha => h a (List.mem_cons_of_mem _ ha))]

theorem gCh_ws (c : Char) (h : isJsWs c = true) : gCh c = [c] := by
  have hk : c ∉ pipeKeys := by
    intro hc
    have hf := pipeKeys_not_ws c hc
    rw [h] at hf
    cases hf
  rw [gCh_default c hk, if_neg (by rw [ws_not_combining c h]; simp)]

/-- An all-whitespace (in particular empty) query pinyin-normalizes to the
empty string. -/
theorem normalizePinyin_ws (query : Str) (h : ∀ c ∈ query, isJsWs c = true) :
    normalizePinyin query = [] := by
  rw [normalizePinyin, pinyinPipe_eq_flatMap,
    flatMap_fix query (fun d hd => gCh_ws d (h d hd)), jsTrim_all_ws query h]

theorem length_filterMap_of_isSome {α β : Type} (f : α → Option β) (l : List α)
    (h : ∀ x ∈ l, (f x).isSome) : (l.filterMap f).length = l.length := by
  induction l with
  | nil => rfl
  | cons x rest ih =>
    rw [List.filterMap_cons]
    cases hf : f x with
    | none =>
      have := h x (List.mem_cons_self _ _)
      rw [hf] at this
      cases this
    | some b =>
      rw [List.length_cons, ih (fun y hy => h y (List.mem_cons_of_mem _ hy))]
      rfl

/-- With `q = nq = ""`, the meanings tier always fires (equality when the
joined meanings are empty, substring containment of `""` otherwise), so every
entry receives a positive score. -/
theorem scoreEntry_pos_of_empty (query : Str) (k : Str) (v : DictionaryResult) :
    0 < scoreEntry query [] [] k v := by
  have hm : ∀ (mc : Str) (prev : Int), 0 < scoreMeaningsTier [] [] mc prev := by
    intro mc prev
    rw [scoreMeaningsTier]
    split_ifs with h1 h2 h3 <;> first | omega | simp [jsIncludes_nil] at h2
  have hp : ∀ (p : Str) (prev : Int), 0 < prev → 0 < scorePinyinTier [] [] p prev := by
    intro p prev hprev
    rw [scorePinyinTier, if_neg (by omega)]
    exact hprev
  have he : ∀ (ex : Str) (prev : Int), 0 < prev → 0 < scoreExampleTier [] [] ex prev := by
    intro ex prev hprev
    rw [scoreExampleTier, if_neg (by omega)]
    exact hprev
  rw [scoreEntry]
  exact he _ _ (hp _ _ (hm _ _))

/-- Claim C10: `searchDictionary` has no empty-query guard: on a non-empty
table, an empty or whitespace-only query gives every entry a score, so it
returns `min |table| 50` results (non-empty), while `searchHanziByPinyin`
returns the empty sequence on the same query. -/
theorem searchDictionary_empty_query (table : Table) (query : Str)
    (hws : ∀ c ∈ query, isJsWs c = true) (hne : table ≠ []) :
    (∀ kv ∈ table, 0 < scoreEntry query (jsTrim (jsToLowerStr query))
      (normalizeText (jsTrim (jsToLowerStr query))) kv.1 kv.2) ∧
    (searchDictionary table query).length = min table.length 50 ∧
    searchDictionary table query ≠ [] ∧
    searchHanziByPinyin table query = [] := by
  have hlow : jsToLowerStr query = query :=
    map_id_of_mem _ _ (fun c hc => toLowerCh_ws c (hws c hc))
  have hq : jsTrim (jsToLowerStr query) = [] := by
    rw [hlow]
    exact jsTrim_all_ws query hws
  have hpos : ∀ kv ∈ table, 0 < scoreEntry query (jsTrim (jsToLowerStr query))
      (normalizeText (jsTrim (jsToLowerStr query))) kv.1 kv.2 := by
    intro kv _
    rw [hq]
    exact scoreEntry_pos_of_empty query kv.1 kv.2
  have hrlen : (searchResultsFor table query).length = table.length := by
    simp only [searchResultsFor]
    exact length_filterMap_of_isSome _ _ (fun kv hkv => by
      rw [if_pos (hpos kv hkv)]
      rfl)
  have hlen : (searchDictionary table query).length = min table.length 50 := by
    rw [searchDictionary, List.length_take, List.length_mergeSort, hrlen, Nat.min_comm]
  refine ⟨hpos, hlen, ?_, ?_⟩
  · apply List.ne_nil_of_length_pos
    rw [hlen]
    have : 0 < table.length := List.length_pos.mpr hne
    omega
  · rw [searchHanziByPinyin]
    rw [if_pos (normalizePinyin_ws query hws)]

/-- Witness for C10 at a one-entry table and the query `" "`. -/
theorem searchDictionary_empty_query_witness :
    ((∀ c ∈ [' '], isJsWs c = true) ∧
      ([(("你".data : Str),
        (⟨"你".data, "ni".data, ["you".data], none, none, none, none, none, none⟩ :
          DictionaryResult))] : Table) ≠ []) ∧
    ((∀ kv ∈ ([(("你".data : Str),
        (⟨"你".data, "ni".data, ["you".data], none, none, none, none, none, none⟩ :
          DictionaryResult))] : Table), 0 < scoreEntry [' ']
          (jsTrim (jsToLowerStr [' '])) (normalizeText (jsTrim (jsToLowerStr [' ']))) kv.1 kv.2) ∧
     (searchDictionary [(("你".data : Str),
        (⟨"你".data, "ni".data, ["you".data], none, none, none, none, none, none⟩ :
          DictionaryResult))] [' ']).length =
       min ([(("你".data : Str),
        (⟨"你".data, "ni".data, ["you".data], none, none, none, none, none, none⟩ :
          DictionaryResult))] : Table).length 50 ∧
     searchDictionary [(("你".data : Str),
        (⟨"你".data, "ni".data, ["you".data], none, none, none, none, none, none⟩ :
          DictionaryResult))] [' '] ≠ [] ∧
     searchHanziByPinyin [(("你".data : Str),
        (⟨"你".data, "ni".data, ["you".data], none, none, none, none, none, none⟩ :
          DictionaryResult))] [' '] = []) :=
  ⟨⟨by decide, by decide⟩,
    searchDictionary_empty_query _ [' '] (by decide) (by decide)⟩

/-!
## Bucket classification of `searchHanziByPinyin` (C3)
-/

/-- The exact-bucket condition: the entry's normalized pinyin equals the
normalized query, or some syllable equals it. -/
def exactCond (nq : Str) (v : DictionaryResult) : Prop :=
  normalizePinyin v.pinyin = nq ∨ (splitWs (normalizePinyin v.pinyin)).contains nq = true

/-- The partial-bucket condition: the normalized pinyin or some syllable
starts with the normalized query. -/
def prefixCond (nq : Str) (v : DictionaryResult) : Prop :=
  nq.isPrefixOf (normalizePinyin v.pinyin) = true ∨
  (splitWs (normalizePinyin v.pinyin)).any (fun s => nq.isPrefixOf s) = true

theorem classifyEntries_mem (nq : Str) (isSh : Bool) (values : List DictionaryResult) :
    (∀ v ∈ (classifyEntries nq isSh values).1,
      exactCond nq v ∧ v.matchType = some "exact" ∧
      v.syllableCount = some (splitWs (normalizePinyin v.pinyin)).length) ∧
    (∀ v ∈ (classifyEntries nq isSh values).2.1,
      ¬ exactCond nq v ∧ prefixCond nq v ∧ v.matchType = some "partial" ∧
      v.syllableCount = some (splitWs (normalizePinyin v.pinyin)).length) ∧
    (∀ v ∈ (classifyEntries nq isSh values).2.2,
      isSh = true ∧ matchesShorthand v.pinyin nq = true ∧
      ¬ exactCond nq v ∧ ¬ prefixCond nq v ∧
      v.matchType = some "shorthand" ∧ v.isShorthand = some true ∧
      v.syllableCount = some (splitWs (normalizePinyin v.pinyin)).length) := by
  induction values with
  | nil => exact ⟨by simp [classifyEntries], by simp [classifyEntries], by simp [classifyEntries]⟩
  | cons v rest ih =>
    obtain ⟨ih1, ih2, ih3⟩ := ih
    simp only [classifyEntries]
    split_ifs with h1 h2 h3
    · simp only [Bool.or_eq_true, decide_eq_true_eq] at h1
      refine ⟨?_, ih2, ih3⟩
      intro w hw
      rcases List.mem_cons.mp hw with hw | hw
      · subst hw
        refine ⟨?_, rfl, rfl⟩
        rw [exactCond]
        exact h1
      · exact ih1 w hw
    · simp only [Bool.or_eq_true, decide_eq_true_eq, not_or] at h1
      simp only [Bool.or_eq_true] at h2
      refine ⟨ih1, ?_, ih3⟩
      intro w hw
      rcases List.mem_cons.mp hw with hw | hw
      · subst hw
        refine ⟨?_, ?_, rfl, rfl⟩
        · rw [exactCond]
          push_neg
          exact ⟨h1.1, by simpa using h1.2⟩
        · rw [prefixCond]
          exact h2
      · exact ih2 w hw
    · simp only [Bool.or_eq_true, decide_eq_true_eq, not_or] at h1
      simp only [Bool.or_eq_true, not_or] at h2
      simp only [Bool.and_eq_true] at h3
      refine ⟨ih1, ih2, ?_⟩
      intro w hw
      rcases List.mem_cons.mp hw with hw | hw
      · subst hw
        refine ⟨h3.1, h3.2, ?_, ?_, rfl, rfl, rfl⟩
        · rw [exactCond]
          push_neg
          exact ⟨h1.1, by simpa using h1.2⟩
        · rw [prefixCond]
          push_neg
          exact ⟨by simpa using h2.1, by simpa using h2.2⟩
      · exact ih3 w hw
    · exact ⟨ih1, ih2, ih3⟩

/-- Exact characterization of the classification pass: each bucket is
precisely the (order-preserving) list of stamped copies of the values that
satisfy its condition and fail every earlier condition — so every table entry
is classified, first match wins. -/
theorem classifyEntries_eq (nq : Str) (isSh : Bool) (values : List DictionaryResult) :
    classifyEntries nq isSh values =
      ((values.filter (fun v =>
          normalizePinyin v.pinyin = nq ||
          (splitWs (normalizePinyin v.pinyin)).contains nq)).map
        (fun v => { v with
          matchType := some "exact"
          syllableCount := some (splitWs (normalizePinyin v.pinyin)).length }),
       (values.filter (fun v =>
          !(normalizePinyin v.pinyin = nq ||
            (splitWs (normalizePinyin v.pinyin)).contains nq) &&
          (nq.isPrefixOf (normalizePinyin v.pinyin) ||
            (splitWs (normalizePinyin v.pinyin)).any (fun s => nq.isPrefixOf s)))).map
        (fun v => { v with
          matchType := some "partial"
          syllableCount := some (splitWs (normalizePinyin v.pinyin)).length }),
       (values.filter (fun v =>
          !(normalizePinyin v.pinyin = nq ||
            (splitWs (normalizePinyin v.pinyin)).contains nq) &&
          !(nq.isPrefixOf (normalizePinyin v.pinyin) ||
            (splitWs (normalizePinyin v.pinyin)).any (fun s => nq.isPrefixOf s)) &&
          (isSh && matchesShorthand v.pinyin nq))).map
        (fun v => { v with
          matchType := some "shorthand"
          isShorthand := some true
          syllableCount := some (splitWs (normalizePinyin v.pinyin)).length })) := by
  induction values with
  | nil => rfl
  | cons v rest ih =>
    have hbridge : ∀ (x y : Str), List.isPrefixOf x y = false ↔ ¬ (x <+: y) := by
      intro x y
      rw [← @List.isPrefixOf_iff_prefix Char _ _ x y]
      exact Bool.eq_false_iff
    have hDiff : (∀ x ∈ splitWs (normalizePinyin v.pinyin), ¬ nq <+: x) ↔
        ¬ ∃ x ∈ splitWs (normalizePinyin v.pinyin), nq <+: x := by
      constructor
      · rintro h ⟨x, hx, hpx⟩
        exact h x hx hpx
      · intro h x hx hpx
        exact h ⟨x, hx, hpx⟩
    simp only [classifyEntries, List.filter_cons, List.map_cons, ih]
    by_cases hA : normalizePinyin v.pinyin = nq <;>
      by_cases hB : nq ∈ splitWs (normalizePinyin v.pinyin) <;>
      by_cases hC : nq <+: normalizePinyin v.pinyin <;>
      by_cases hD : ∃ x ∈ splitWs (normalizePinyin v.pinyin), nq <+: x <;>
      by_cases hE : isSh = true <;>
      by_cases hF : matchesShorthand v.pinyin nq = true <;>
      simp [hA, hB, hC, hD, hE, hF, hbridge, hDiff]

theorem sylLE_trans (a b c : DictionaryResult) (h1 : sylLE a b) (h2 : sylLE b c) : sylLE a c := by
  simp only [sylLE, decide_eq_true_eq] at h1 h2 ⊢
  omega

theorem sylLE_total (a b : DictionaryResult) : sylLE a b || sylLE b a := by
  simp only [sylLE, Bool.or_eq_true, decide_eq_true_eq]
  omega

/-- Claim C3: with a non-empty normalized query, `searchHanziByPinyin` is the
concatenation of an exact, a partial and a shorthand segment (in that order,
so every exact result precedes every partial result precedes every shorthand
result), truncated to at most 10 results.  The segments are complete as well
as sound: each is a permutation of the stamped copies of ALL table values
satisfying its bucket condition and failing every earlier one (first match
wins, each entry in at most one bucket; the shorthand bucket requires the
shorthand-shaped query), every result carries its `matchType`/`syllableCount`
stamps, and each segment is non-decreasing in `syllableCount`.  With an empty
normalized query the result is empty. -/
theorem searchHanziByPinyin_spec (table : Table) (query : Str) :
    (normalizePinyin query = [] → searchHanziByPinyin table query = []) ∧
    (searchHanziByPinyin table query).length ≤ 10 ∧
    (normalizePinyin query ≠ [] →
      ∃ E P S : List DictionaryResult,
        searchHanziByPinyin table query = (E ++ P ++ S).take 10 ∧
        List.Perm E (((table.map (fun p => p.2)).filter (fun v =>
            normalizePinyin v.pinyin = normalizePinyin query ||
            (splitWs (normalizePinyin v.pinyin)).contains (normalizePinyin query))).map
          (fun v => { v with
            matchType := some "exact"
            syllableCount := some (splitWs (normalizePinyin v.pinyin)).length })) ∧
        List.Perm P (((table.map (fun p => p.2)).filter (fun v =>
            !(normalizePinyin v.pinyin = normalizePinyin query ||
              (splitWs (normalizePinyin v.pinyin)).contains (normalizePinyin query)) &&
            ((normalizePinyin query).isPrefixOf (normalizePinyin v.pinyin) ||
              (splitWs (normalizePinyin v.pinyin)).any
                (fun s => (normalizePinyin query).isPrefixOf s)))).map
          (fun v => { v with
            matchType := some "partial"
            syllableCount := some (splitWs (normalizePinyin v.pinyin)).length })) ∧
        List.Perm S (((table.map (fun p => p.2)).filter (fun v =>
            !(normalizePinyin v.pinyin = normalizePinyin query ||
              (splitWs (normalizePinyin v.pinyin)).contains (normalizePinyin query)) &&
            !((normalizePinyin query).isPrefixOf (normalizePinyin v.pinyin) ||
              (splitWs (normalizePinyin v.pinyin)).any
                (fun s => (normalizePinyin query).isPrefixOf s)) &&
            (isShorthandQuery (normalizePinyin query) &&
              matchesShorthand v.pinyin (normalizePinyin query)))).map
          (fun v => { v with
            matchType := some "shorthand"
            isShorthand := some true
            syllableCount := some (splitWs (normalizePinyin v.pinyin)).length })) ∧
        E.Pairwise (fun a b => sylLE a b = true) ∧
        P.Pairwise (fun a b => sylLE a b = true) ∧
        S.Pairwise (fun a b => sylLE a b = true) ∧
        (∀ v ∈ E,
          exactCond (normalizePinyin query) v ∧ v.matchType = some "exact" ∧
          v.syllableCount = some (splitWs (normalizePinyin v.pinyin)).length) ∧
        (∀ v ∈ P,
          ¬ exactCond (normalizePinyin query) v ∧ prefixCond (normalizePinyin query) v ∧
          v.matchType = some "partial" ∧
          v.syllableCount = some (splitWs (normalizePinyin v.pinyin)).length) ∧
        (∀ v ∈ S,
          isShorthandQuery (normalizePinyin query) = true ∧
          matchesShorthand v.pinyin (normalizePinyin query) = true ∧
          ¬ exactCond (normalizePinyin query) v ∧ ¬ prefixCond (normalizePinyin query) v ∧
          v.matchType = some "shorthand" ∧ v.isShorthand = some true ∧
          v.syllableCount = some (splitWs (normalizePinyin v.pinyin)).length)) := by
  by_cases hq : normalizePinyin query = []
  · refine ⟨fun _ => ?_, ?_, fun hne => absurd hq hne⟩
    · rw [searchHanziByPinyin, if_pos hq]
    · rw [searchHanziByPinyin, if_pos hq]
      simp
  · have hunfold : searchHanziByPinyin table query =
        (((classifyEntries (normalizePinyin query) (isShorthandQuery (normalizePinyin query))
            (table.map (fun p => p.2))).1.mergeSort sylLE ++
          (classifyEntries (normalizePinyin query) (isShorthandQuery (normalizePinyin query))
            (table.map (fun p => p.2))).2.1.mergeSort sylLE ++
          (classifyEntries (normalizePinyin query) (isShorthandQuery (normalizePinyin query))
            (table.map (fun p => p.2))).2.2.mergeSort sylLE).take 10) := by
      rw [searchHanziByPinyin, if_neg hq]
    obtain ⟨hc1, hc2, hc3⟩ := classifyEntries_mem (normalizePinyin query)
      (isShorthandQuery (normalizePinyin query)) (table.map (fun p => p.2))
    refine ⟨fun h => absurd h hq, ?_, fun _ => ?_⟩
    · rw [hunfold]
      exact List.length_take_le 10 _
    · have hceq := classifyEntries_eq (normalizePinyin query)
        (isShorthandQuery (normalizePinyin query)) (table.map (fun p => p.2))
      refine ⟨_, _, _, hunfold, ?_, ?_, ?_, ?_, ?_, ?_, ?_, ?_, ?_⟩
      · refine (List.mergeSort_perm _ _).trans ?_
        rw [hceq]
      · refine (List.mergeSort_perm _ _).trans ?_
        rw [hceq]
      · refine (List.mergeSort_perm _ _).trans ?_
        rw [hceq]
      · exact List.sorted_mergeSort sylLE_trans sylLE_total _
      · exact List.sorted_mergeSort sylLE_trans sylLE_total _
      · exact List.sorted_mergeSort sylLE_trans sylLE_total _
      · intro w hw
        exact hc1 w (List.mem_mergeSort.mp hw)
      · intro w hw
        exact hc2 w (List.mem_mergeSort.mp hw)
      · intro w hw
        obtain ⟨hsh, rest⟩ := hc3 w (List.mem_mergeSort.mp hw)
        exact ⟨hsh, rest⟩

/-- The concrete table used by the C3 witness: `你 nǐ`, `你好 nǐ hǎo`,
`您 nín` (insertion order as listed). -/
def hanziWitnessTable : Table :=
  [("你".data, ⟨"你".data, "nǐ".data, ["you".data], none, none, none, none, none, none⟩),
   ("你好".data, ⟨"你好".data, "nǐ hǎo".data, ["hello".data], none, none, none, none, none,
     none⟩),
   ("您".data, ⟨"您".data, "nín".data, ["you (polite)".data], none, none, none, none, none,
     none⟩)]

set_option maxRecDepth 8192 in
/-- Witness for C3 at the table `hanziWitnessTable` and the query `"ni"`: the
claim's conclusion is obtained by applying `searchHanziByPinyin_spec`, with the
non-emptiness hypothesis on the normalized query discharged by `decide`; and in
addition the output is pinned concretely: the exact matches `你` (one syllable,
pinyin equal to the query) and `你好` (two syllables, first syllable equal to
the query) come first in syllable order, followed by the partial match `您`
(whose syllable `nin` merely starts with `ni`). -/
theorem searchHanziByPinyin_spec_witness :
    (∃ E P S : List DictionaryResult,
        searchHanziByPinyin hanziWitnessTable "ni".data = (E ++ P ++ S).take 10 ∧
        List.Perm E (((hanziWitnessTable.map (fun p => p.2)).filter (fun v =>
            normalizePinyin v.pinyin = normalizePinyin "ni".data ||
            (splitWs (normalizePinyin v.pinyin)).contains (normalizePinyin "ni".data))).map
          (fun v => { v with
            matchType := some "exact"
            syllableCount := some (splitWs (normalizePinyin v.pinyin)).length })) ∧
        List.Perm P (((hanziWitnessTable.map (fun p => p.2)).filter (fun v =>
            !(normalizePinyin v.pinyin = normalizePinyin "ni".data ||
              (splitWs (normalizePinyin v.pinyin)).contains (normalizePinyin "ni".data)) &&
            ((normalizePinyin "ni".data).isPrefixOf (normalizePinyin v.pinyin) ||
              (splitWs (normalizePinyin v.pinyin)).any
                (fun s => (normalizePinyin "ni".data).isPrefixOf s)))).map
          (fun v => { v with
            matchType := some "partial"
            syllableCount := some (splitWs (normalizePinyin v.pinyin)).length })) ∧
        List.Perm S (((hanziWitnessTable.map (fun p => p.2)).filter (fun v =>
            !(normalizePinyin v.pinyin = normalizePinyin "ni".data ||
              (splitWs (normalizePinyin v.pinyin)).contains (normalizePinyin "ni".data)) &&
            !((normalizePinyin "ni".data).isPrefixOf (normalizePinyin v.pinyin) ||
              (splitWs (normalizePinyin v.pinyin)).any
                (fun s => (normalizePinyin "ni".data).isPrefixOf s)) &&
            (isShorthandQuery (normalizePinyin "ni".data) &&
              matchesShorthand v.pinyin (normalizePinyin "ni".data)))).map
          (fun v => { v with
            matchType := some "shorthand"
            isShorthand := some true
            syllableCount := some (splitWs (normalizePinyin v.pinyin)).length })) ∧
        E.Pairwise (fun a b => sylLE a b = true) ∧
        P.Pairwise (fun a b => sylLE a b = true) ∧
        S.Pairwise (fun a b => sylLE a b = true) ∧
        (∀ v ∈ E,
          exactCond (normalizePinyin "ni".data) v ∧ v.matchType = some "exact" ∧
          v.syllableCount = some (splitWs (normalizePinyin v.pinyin)).length) ∧
        (∀ v ∈ P,
          ¬ exactCond (normalizePinyin "ni".data) v ∧ prefixCond (normalizePinyin "ni".data) v ∧
          v.matchType = some "partial" ∧
          v.syllableCount = some (splitWs (normalizePinyin v.pinyin)).length) ∧
        (∀ v ∈ S,
          isShorthandQuery (normalizePinyin "ni".data) = true ∧
          matchesShorthand v.pinyin (normalizePinyin "ni".data) = true ∧
          ¬ exactCond (normalizePinyin "ni".data) v ∧ ¬ prefixCond (normalizePinyin "ni".data) v ∧
          v.matchType = some "shorthand" ∧ v.isShorthand = some true ∧
          v.syllableCount = some (splitWs (normalizePinyin v.pinyin)).length)) ∧
    searchHanziByPinyin hanziWitnessTable "ni".data =
      [⟨"你".data, "nǐ".data, ["you".data], none, none, none, some "exact", none, some 1⟩,
       ⟨"你好".data, "nǐ hǎo".data, ["hello".data], none, none, none, some "exact", none,
         some 2⟩,
       ⟨"您".data, "nín".data, ["you (polite)".data], none, none, none, some "partial", none,
         some 1⟩] := by
  refine ⟨(searchHanziByPinyin_spec hanziWitnessTable "ni".data).2.2 (by decide), ?_⟩
  have hq : ¬ normalizePinyin "ni".data = [] := by decide
  have hclass : classifyEntries (normalizePinyin "ni".data)
      (isShorthandQuery (normalizePinyin "ni".data))
      (hanziWitnessTable.map (fun p => p.2)) =
      ([⟨"你".data, "nǐ".data, ["you".data], none, none, none, some "exact", none, some 1⟩,
        ⟨"你好".data, "nǐ hǎo".data, ["hello".data], none, none, none, some "exact", none,
          some 2⟩],
       [⟨"您".data, "nín".data, ["you (polite)".data], none, none, none, some "partial", none,
          some 1⟩],
       []) := by decide
  have hsorted : List.mergeSort
      [⟨"你".data, "nǐ".data, ["you".data], none, none, none, some "exact", none, some 1⟩,
       ⟨"你好".data, "nǐ hǎo".data, ["hello".data], none, none, none, some "exact", none,
         some 2⟩] sylLE =
      [⟨"你".data, "nǐ".data, ["you".data], none, none, none, some "exact", none, some 1⟩,
       ⟨"你好".data, "nǐ hǎo".data, ["hello".data], none, none, none, some "exact", none,
         some 2⟩] :=
    List.mergeSort_of_sorted (by decide)
  have hunf : searchHanziByPinyin hanziWitnessTable "ni".data =
      (((classifyEntries (normalizePinyin "ni".data)
          (isShorthandQuery (normalizePinyin "ni".data))
          (hanziWitnessTable.map (fun p => p.2))).1.mergeSort sylLE ++
        (classifyEntries (normalizePinyin "ni".data)
          (isShorthandQuery (normalizePinyin "ni".data))
          (hanziWitnessTable.map (fun p => p.2))).2.1.mergeSort sylLE ++
        (classifyEntries (normalizePinyin "ni".data)
          (isShorthandQuery (normalizePinyin "ni".data))
          (hanziWitnessTable.map (fun p => p.2))).2.2.mergeSort sylLE).take 10) := by
    rw [searchHanziByPinyin, if_neg hq]
  rw [hunf, hclass]
  simp only [hsorted, List.mergeSort_singleton, List.mergeSort_nil]
  rfl

/-!
## `searchDictionary` ranking (C2)

The JavaScript comparator reads the optional `score` field; on the lists the
code actually sorts every element carries a `some` score, where the
comparator agrees with the total, transitive lexicographic relation `dictR`
(score descending, then word length ascending).  `mergeSort_congr` lets us
replace the comparator by `dictR` for reasoning, since `mergeSort` only ever
compares elements of its input list.
-/

theorem merge_congr {α : Type} {le le' : α → α → Bool} :
    ∀ (xs ys : List α), (∀ a b, a ∈ xs → b ∈ ys → le a b = le' a b) →
    List.merge xs ys le = List.merge xs ys le'
  | [], ys, _ => by simp
  | x :: xs, [], _ => by simp
  | x :: xs, y :: ys, h => by
    simp only [List.merge]
    rw [h x y (List.mem_cons_self _ _) (List.mem_cons_self _ _)]
    by_cases hxy : le' x y = true
    · rw [if_pos hxy, if_pos hxy, merge_congr xs (y :: ys)
        (fun a b ha hb => h a b (List.mem_cons_of_mem _ ha) hb)]
    · rw [if_neg hxy, if_neg hxy, merge_congr (x :: xs) ys
        (fun a b ha hb => h a b ha (List.mem_cons_of_mem _ hb))]
termination_by xs ys => xs.length + ys.length

theorem mergeSort_congr {α : Type} {le le' : α → α → Bool} :
    ∀ (l : List α), (∀ a b, a ∈ l → b ∈ l → le a b = le' a b) →
    List.mergeSort l le = List.mergeSort l le'
  | [], _ => by simp
  | [a], _ => by simp
  | a :: b :: xs, h => by
    have h1 : (List.splitInTwo ⟨a :: b :: xs, rfl⟩).1.1.length < xs.length + 1 + 1 := by
      simp [List.splitInTwo_fst]
      omega
    have h2 : (List.splitInTwo ⟨a :: b :: xs, rfl⟩).2.1.length < xs.length + 1 + 1 := by
      simp [List.splitInTwo_snd]
      omega
    have hm1 : ∀ c ∈ (List.splitInTwo
        (⟨a :: b :: xs, rfl⟩ : {l : List α // l.length = xs.length + 1 + 1})).1.1,
        c ∈ a :: b :: xs := by
      intro c hc
      simp only [List.splitInTwo_fst] at hc
      exact List.mem_of_mem_take hc
    have hm2 : ∀ c ∈ (List.splitInTwo
        (⟨a :: b :: xs, rfl⟩ : {l : List α // l.length = xs.length + 1 + 1})).2.1,
        c ∈ a :: b :: xs := by
      intro c hc
      simp only [List.splitInTwo_snd] at hc
      exact List.mem_of_mem_drop hc
    rw [List.mergeSort, List.mergeSort]
    rw [mergeSort_congr _ (fun p q hp hq => h p q (hm1 p hp) (hm1 q hq)),
        mergeSort_congr _ (fun p q hp hq => h p q (hm2 p hp) (hm2 q hq))]
    exact merge_congr _ _ (fun p q hp hq =>
      h p q (hm1 p (List.mem_mergeSort.mp hp)) (hm2 q (List.mem_mergeSort.mp hq)))
termination_by l => l.length

/-- The effective sort key `a.score || 0`. -/
def dictScoreKey (r : DictionaryResult) : Int :=
  r.score.getD 0

/-- Score descending then word length ascending — the total, transitive
relation the comparator implements on elements whose `score` is present. -/
def dictR (a b : DictionaryResult) : Bool :=
  decide (dictScoreKey b < dictScoreKey a) ||
  (decide (dictScoreKey a = dictScoreKey b) && decide (a.word.length ≤ b.word.length))

theorem dictR_trans (a b c : DictionaryResult) (h1 : dictR a b) (h2 : dictR b c) : dictR a c := by
  simp only [dictR, Bool.or_eq_true, Bool.and_eq_true, decide_eq_true_eq] at h1 h2 ⊢
  rcases h1 with h1 | ⟨h1a, h1b⟩ <;> rcases h2 with h2 | ⟨h2a, h2b⟩
  · left; omega
  · left; omega
  · left; omega
  · right; exact ⟨by omega, by omega⟩

theorem dictR_total (a b : DictionaryResult) : dictR a b || dictR b a := by
  simp only [dictR, Bool.or_eq_true, Bool.and_eq_true, decide_eq_true_eq]
  rcases lt_trichotomy (dictScoreKey a) (dictScoreKey b) with h | h | h
  · right; left; exact h
  · by_cases hw : a.word.length ≤ b.word.length
    · left; right; exact ⟨h, hw⟩
    · right; right; exact ⟨h.symm, by omega⟩
  · left; left; exact h

theorem dictLE_eq_dictR (a b : DictionaryResult)
    (ha : a.score.isSome = true) (hb : b.score.isSome = true) : dictLE a b = dictR a b := by
  obtain ⟨x, hx⟩ := Option.isSome_iff_exists.mp ha
  obtain ⟨y, hy⟩ := Option.isSome_iff_exists.mp hb
  rw [Bool.eq_iff_iff, dictLE, dictR, dictScoreKey, dictScoreKey, hx, hy]
  by_cases hxy : x = y
  · subst hxy
    rw [if_neg (by simp)]
    simp only [Option.getD_some, Bool.or_eq_true, Bool.and_eq_true, decide_eq_true_eq,
      lt_self_iff_false, false_or, true_and]
    omega
  · rw [if_pos (by simp [hxy])]
    simp only [Option.getD_some, Bool.or_eq_true, Bool.and_eq_true, decide_eq_true_eq]
    constructor
    · intro h
      left
      omega
    · intro h
      rcases h with h | ⟨h1, h2⟩
      · omega
      · omega

/-- The meanings-tier trigger: joined lowercased meanings equal `q` (raw or
normalized), or contain it as a substring (raw or normalized). -/
abbrev meaningsFire (q nq mc : Str) : Prop :=
  (mc = q ∨ normalizeText mc = nq) ∨
  (jsIncludes mc q = true ∨ jsIncludes (normalizeText mc) nq = true)

theorem scoreMeaningsTier_not_fire (q nq mc : Str) (prev : Int)
    (h : ¬ meaningsFire q nq mc) : scoreMeaningsTier q nq mc prev = prev := by
  rw [meaningsFire, not_or, not_or, not_or] at h
  rw [scoreMeaningsTier,
    if_neg (by simp only [Bool.or_eq_true, decide_eq_true_eq, not_or]; exact h.1),
    if_neg (by simp only [Bool.or_eq_true, not_or]; exact h.2)]

theorem scoreKeyTier_eq_1000 (query key trad : Str) (h : scoreKeyTier query key trad = 1000) :
    key = query := by
  rw [scoreKeyTier] at h
  split_ifs at h
  all_goals first | assumption | exact absurd h (by decide)

theorem scoreMeaningsTier_eq_1000 (q nq mc : Str) (prev : Int)
    (h : scoreMeaningsTier q nq mc prev = 1000) : prev = 1000 := by
  rw [scoreMeaningsTier] at h
  split_ifs at h
  all_goals first | assumption | exact absurd h (by decide)

theorem scorePinyinTier_eq_1000 (q nq p : Str) (prev : Int)
    (h : scorePinyinTier q nq p prev = 1000) : prev = 1000 := by
  rw [scorePinyinTier] at h
  split_ifs at h
  all_goals first | assumption | exact absurd h (by decide)

theorem scoreExampleTier_eq_1000 (q nq ex : Str) (prev : Int)
    (h : scoreExampleTier q nq ex prev = 1000) : prev = 1000 := by
  rw [scoreExampleTier] at h
  split_ifs at h
  all_goals first | assumption | exact absurd h (by decide)

theorem scoreEntry_le_1000 (query q nq key : Str) (v : DictionaryResult) :
    scoreEntry query q nq key v ≤ 1000 := by
  have hk : ∀ trad, scoreKeyTier query key trad ≤ 1000 := by
    intro trad
    rw [scoreKeyTier]
    split_ifs <;> omega
  have hm : ∀ mc prev, prev ≤ 1000 → scoreMeaningsTier q nq mc prev ≤ (1000 : Int) := by
    intro mc prev hp
    rw [scoreMeaningsTier]
    split_ifs <;> omega
  have hp : ∀ p prev, prev ≤ 1000 → scorePinyinTier q nq p prev ≤ (1000 : Int) := by
    intro p prev hp
    rw [scorePinyinTier]
    split_ifs <;> omega
  have he : ∀ ex prev, prev ≤ 1000 → scoreExampleTier q nq ex prev ≤ (1000 : Int) := by
    intro ex prev hp
    rw [scoreExampleTier]
    split_ifs <;> omega
  simp only [scoreEntry]
  exact he _ _ (hp _ _ (hm _ _ (hk _)))

/-- An entry scores exactly 1000 only via the key tier: its key equals the
raw query and the meanings tier did not fire. -/
theorem scoreEntry_eq_1000_key (query q nq key : Str) (v : DictionaryResult)
    (h : scoreEntry query q nq key v = 1000) : key = query := by
  simp only [scoreEntry] at h
  exact scoreKeyTier_eq_1000 _ _ _
    (scoreMeaningsTier_eq_1000 _ _ _ _
      (scorePinyinTier_eq_1000 _ _ _ _
        (scoreExampleTier_eq_1000 _ _ _ _ h)))

/-- Conversely, a key hit whose meanings tier does not fire scores 1000. -/
theorem scoreEntry_eq_1000_of (query q nq key : Str) (v : DictionaryResult)
    (hkq : key = query)
    (hmean : ¬ meaningsFire q nq (jsToLowerStr (joinSpace v.meaning))) :
    scoreEntry query q nq key v = 1000 := by
  simp only [scoreEntry]
  rw [scoreKeyTier, if_pos hkq, scoreMeaningsTier_not_fire _ _ _ _ hmean,
    scorePinyinTier, if_neg (by omega), scoreExampleTier, if_neg (by omega)]

theorem nodup_keys_unique (k : Str) (v1 v2 : DictionaryResult) :
    ∀ (t : Table), (t.map (fun p => p.1)).Nodup →
      (k, v1) ∈ t → (k, v2) ∈ t → v1 = v2
  | [], _, h1, _ => absurd h1 (List.not_mem_nil _)
  | p :: rest, hnd, h1, h2 => by
    rw [List.map_cons, List.nodup_cons] at hnd
    rcases List.mem_cons.mp h1 with e1 | m1 <;> rcases List.mem_cons.mp h2 with e2 | m2
    · have h12 : (k, v1) = (k, v2) := e1.trans e2.symm
      simpa using h12
    · exfalso
      apply hnd.1
      have hk1 : p.1 = k := by rw [← e1]
      rw [hk1]
      exact List.mem_map_of_mem (fun p => p.1) m2
    · exfalso
      apply hnd.1
      have hk2 : p.1 = k := by rw [← e2]
      rw [hk2]
      exact List.mem_map_of_mem (fun p => p.1) m1
    · exact nodup_keys_unique k v1 v2 rest hnd.2 m1 m2

theorem searchResults_mem (table : Table) (query : Str) (r : DictionaryResult)
    (hr : r ∈ searchResultsFor table query) :
    ∃ k' v', (k', v') ∈ table ∧
      0 < scoreEntry query (jsTrim (jsToLowerStr query))
        (normalizeText (jsTrim (jsToLowerStr query))) k' v' ∧
      r = { v' with score := some (scoreEntry query (jsTrim (jsToLowerStr query))
        (normalizeText (jsTrim (jsToLowerStr query))) k' v') } := by
  simp only [searchResultsFor] at hr
  obtain ⟨kv, hkv, hf⟩ := List.mem_filterMap.mp hr
  split_ifs at hf with hs
  exact ⟨kv.1, kv.2, hkv, hs, (Option.some.inj hf).symm⟩

theorem searchResults_mem_of (table : Table) (query : Str) (k : Str) (v : DictionaryResult)
    (hmem : (k, v) ∈ table)
    (hpos : 0 < scoreEntry query (jsTrim (jsToLowerStr query))
      (normalizeText (jsTrim (jsToLowerStr query))) k v) :
    { v with score := some (scoreEntry query (jsTrim (jsToLowerStr query))
      (normalizeText (jsTrim (jsToLowerStr query))) k v) } ∈ searchResultsFor table query := by
  simp only [searchResultsFor]
  exact List.mem_filterMap.mpr ⟨(k, v), hmem, by rw [if_pos hpos]⟩

/-- Claim C2, counterexample: the meanings tier is not guarded by `score < 0`.
For the table `{好 ↦ {pinyin: "hao", meaning: ["好"]}}` and query `"好"`, the
key tier sets `score = 1000` (key equals the raw query) but the unguarded
meanings block then overwrites it with 900 (the joined meanings equal `q`),
so the entry is returned with score 900, not 1000 as the claim states. -/
theorem searchDictionary_demotes_exact_key :
    (searchDictionary
      [("好".data, ⟨"好".data, "hao".data, ["好".data], none, none, none, none, none, none⟩)]
      "好".data).map (fun r => r.score) = [some 900] ∧ (some (900 : Int)) ≠ some 1000 := by
  constructor
  · have hres : searchResultsFor
        [("好".data, ⟨"好".data, "hao".data, ["好".data], none, none, none, none, none, none⟩)]
        "好".data =
        [⟨"好".data, "hao".data, ["好".data], none, none, some 900, none, none, none⟩] := by
      decide
    rw [searchDictionary, hres, List.mergeSort_singleton]
    rfl
  · decide

/-- Claim C2 (amended: the key tiers 1000/950 are computed first, then the
meanings tiers 900/850/800 are computed unconditionally and, when satisfied,
overwrite the key tier; the pinyin tiers 750/700 and the example tier 600
apply only when no earlier tier assigned a score; consequently an entry whose
key equals the raw query scores 1000 and is ranked first provided its joined
meanings do not equal or contain the processed query): with unique table keys,
the matching entry is returned first with score 1000, the result is sorted by
the comparator (score descending, ties by ascending word length), and at most
50 results are returned. -/
theorem searchDictionary_key_hit (table : Table) (query key : Str) (v : DictionaryResult)
    (hnd : (table.map (fun p => p.1)).Nodup)
    (hmem : (key, v) ∈ table)
    (hkq : key = query)
    (hmean : ¬ meaningsFire (jsTrim (jsToLowerStr query))
      (normalizeText (jsTrim (jsToLowerStr query))) (jsToLowerStr (joinSpace v.meaning))) :
    (searchDictionary table query).head? = some { v with score := some (1000 : Int) } ∧
    (searchDictionary table query).length ≤ 50 ∧
    (searchDictionary table query).Pairwise (fun a b => dictLE a b = true) := by
  have h1000 : scoreEntry query (jsTrim (jsToLowerStr query))
      (normalizeText (jsTrim (jsToLowerStr query))) key v = 1000 :=
    scoreEntry_eq_1000_of _ _ _ _ _ hkq hmean
  have hmemres : { v with score := some (1000 : Int) } ∈ searchResultsFor table query := by
    have hin := searchResults_mem_of table query key v hmem (by rw [h1000]; omega)
    rw [h1000] at hin
    exact hin
  have hallsome : ∀ r ∈ searchResultsFor table query, r.score.isSome = true := by
    intro r hr
    obtain ⟨k', v', _, _, hre⟩ := searchResults_mem table query r hr
    rw [hre]
    rfl
  have hbound : ∀ r ∈ searchResultsFor table query, dictScoreKey r ≤ 1000 := by
    intro r hr
    obtain ⟨k', v', _, _, hre⟩ := searchResults_mem table query r hr
    rw [hre]
    have hrw : dictScoreKey { v' with score := some (scoreEntry query
        (jsTrim (jsToLowerStr query)) (normalizeText (jsTrim (jsToLowerStr query))) k' v') } =
        scoreEntry query (jsTrim (jsToLowerStr query))
          (normalizeText (jsTrim (jsToLowerStr query))) k' v' := rfl
    rw [hrw]
    exact scoreEntry_le_1000 _ _ _ _ _
  have huniq : ∀ r ∈ searchResultsFor table query, dictScoreKey r = 1000 →
      r = { v with score := some (1000 : Int) } := by
    intro r hr hkey
    obtain ⟨k', v', hm', hpos', hre⟩ := searchResults_mem table query r hr
    rw [hre] at hkey
    have hs' : scoreEntry query (jsTrim (jsToLowerStr query))
        (normalizeText (jsTrim (jsToLowerStr query))) k' v' = 1000 := hkey
    have hk'key : k' = key := (scoreEntry_eq_1000_key _ _ _ _ _ hs').trans hkq.symm
    have hv' : v' = v := nodup_keys_unique key v' v table hnd (hk'key ▸ hm') hmem
    have hs2 : scoreEntry query (jsTrim (jsToLowerStr query))
        (normalizeText (jsTrim (jsToLowerStr query))) k' v = 1000 := by
      rw [← hv']
      exact hs'
    rw [hre, hv', hs2]
  have hcong : List.mergeSort (searchResultsFor table query) dictLE =
      List.mergeSort (searchResultsFor table query) dictR :=
    mergeSort_congr _ (fun a b ha hb => dictLE_eq_dictR a b (hallsome a ha) (hallsome b hb))
  have hsorted : (List.mergeSort (searchResultsFor table query) dictLE).Pairwise
      (fun a b => dictR a b = true) := by
    rw [hcong]
    exact List.sorted_mergeSort dictR_trans dictR_total _
  have hmemS : { v with score := some (1000 : Int) } ∈
      List.mergeSort (searchResultsFor table query) dictLE := List.mem_mergeSort.mpr hmemres
  have hpairLE : (searchDictionary table query).Pairwise (fun a b => dictLE a b = true) := by
    rw [searchDictionary]
    have hpw50 := hsorted.sublist (List.take_sublist 50 _)
    apply List.Pairwise.imp_of_mem ?_ hpw50
    intro a b ha hb hab
    rw [dictLE_eq_dictR a b
      (hallsome a (List.mem_mergeSort.mp (List.mem_of_mem_take ha)))
      (hallsome b (List.mem_mergeSort.mp (List.mem_of_mem_take hb)))]
    exact hab
  cases hS : List.mergeSort (searchResultsFor table query) dictLE with
  | nil =>
    rw [hS] at hmemS
    cases hmemS
  | cons h0 t0 =>
    have hh0mem : h0 ∈ searchResultsFor table query := by
      have : h0 ∈ List.mergeSort (searchResultsFor table query) dictLE := by
        rw [hS]
        exact List.mem_cons_self _ _
      exact List.mem_mergeSort.mp this
    have hh0 : h0 = { v with score := some (1000 : Int) } := by
      rw [hS] at hmemS hsorted
      rcases List.mem_cons.mp hmemS with he | he
      · exact he.symm
      · have hrel := (List.pairwise_cons.mp hsorted).1 _ he
        have hge : 1000 ≤ dictScoreKey h0 := by
          simp only [dictR, Bool.or_eq_true, Bool.and_eq_true, decide_eq_true_eq] at hrel
          have hkey_e : dictScoreKey { v with score := some (1000 : Int) } = 1000 := rfl
          rcases hrel with h | ⟨h, _⟩
          · rw [hkey_e] at h
            omega
          · rw [hkey_e] at h
            omega
        exact huniq h0 hh0mem (le_antisymm (hbound h0 hh0mem) hge)
    refine ⟨?_, ?_, hpairLE⟩
    · rw [searchDictionary, hS, hh0]
      rfl
    · rw [searchDictionary]
      exact List.length_take_le _ _

/-- Witness for C2's amended claim at the one-entry table `{你 ↦ {pinyin:
"ni", meaning: ["you"]}}` and query `"你"`. -/
theorem searchDictionary_key_hit_witness :
    (((([("你".data, ⟨"你".data, "ni".data, ["you".data], none, none, none, none, none,
        none⟩)] : Table).map (fun p => p.1)).Nodup) ∧
      ("你".data, (⟨"你".data, "ni".data, ["you".data], none, none, none, none, none,
        none⟩ : DictionaryResult)) ∈
        ([("你".data, ⟨"你".data, "ni".data, ["you".data], none, none, none, none, none,
          none⟩)] : Table) ∧
      ¬ meaningsFire (jsTrim (jsToLowerStr "你".data))
        (normalizeText (jsTrim (jsToLowerStr "你".data)))
        (jsToLowerStr (joinSpace [("you".data : Str)]))) ∧
    ((searchDictionary [("你".data, ⟨"你".data, "ni".data, ["you".data], none, none, none,
        none, none, none⟩)] "你".data).head? =
      some { (⟨"你".data, "ni".data, ["you".data], none, none, none, none, none, none⟩ :
        DictionaryResult) with score := some (1000 : Int) } ∧
     (searchDictionary [("你".data, ⟨"你".data, "ni".data, ["you".data], none, none, none,
        none, none, none⟩)] "你".data).length ≤ 50 ∧
     (searchDictionary [("你".data, ⟨"你".data, "ni".data, ["you".data], none, none, none,
        none, none, none⟩)] "你".data).Pairwise (fun a b => dictLE a b = true)) :=
  ⟨⟨by decide, by decide, by decide⟩,
    searchDictionary_key_hit _ "你".data "你".data _ (by decide) (by decide) rfl (by decide)⟩
